import Mathlib

/-!
Verification development for the multiwallet repository.

The definitions below are a shallow embedding of the Go sources:
* the HD keychain (`base` package: address records, look-ahead extension,
  `NewAddress`, `MarkAddressAsUsed`, passphrase handling), and
* the bitcoincash wallet (`Spend`, `SweepWallet`, `WatchAddress`,
  `CreateMultisigAddress`, `CreateMultisigWithTimeout`,
  `ReleaseFundsAfterTimeout`, `BuildAndSend`, commit hooks).

Modelling conventions:
* Go byte slices and strings are `List Nat`; amounts (`iwallet.Amount`,
  an arbitrary-precision integer) are `Int`.
* Go map iteration is modelled by list order; maps are association lists
  updated in place (update-or-append).
* Randomness (fresh txids, fresh addresses, salts, IVs) is passed in as
  explicit arguments.
* External cryptographic libraries (AES-CFB, PBKDF2, secp256k1
  serialization, SHA-256, BIP32 child derivation) are parameters of the
  embedding; base64 encoding (an injective encoding that is decoded right
  back by the code) is elided, the raw bytes are stored directly.
* Derivation of a BIP32 child key can fail for rare indices; the Go code
  retries with the next index in an unbounded loop, which is embedded
  with an explicit fuel argument.
-/

/-! ## Keychain data model (base package, part_000) -/

/-- A persisted address record (database.AddressRecord): address string,
derivation index, chain flag (false = external, true = internal) and the
used flag.  The coin column is fixed throughout and omitted. -/
structure AddressRecord where
  addr : Nat
  keyIndex : Nat
  change : Bool
  used : Bool
deriving DecidableEq, Repr

/-- One step of the first loop of `getLookaheadWindows`: track the largest
key index among used records of the given chain, starting from -1. -/
def lastUsedStep (c : Bool) (acc : Int) (r : AddressRecord) : Int :=
  if r.change == c && r.used && decide (acc < (r.keyIndex : Int)) then (r.keyIndex : Int) else acc

/-- The highest used key index of chain `c` (`internalLastUsed` /
`externalLastUsed` in `getLookaheadWindows`), -1 when no record of the
chain is used. -/
def lastUsedIdx (recs : List AddressRecord) (c : Bool) : Int :=
  recs.foldl (lastUsedStep c) (-1)

/-- Predicate counted by the second loop of `getLookaheadWindows`: an
unused record of chain `c` whose index lies strictly above `last`. -/
def unusedAbovePred (c : Bool) (last : Int) (r : AddressRecord) : Bool :=
  r.change == c && !r.used && decide (last < (r.keyIndex : Int))

/-- The look-ahead window of chain `c` as computed by
`getLookaheadWindows`: the number of unused records with key index
strictly greater than the highest used index of that chain. -/
def unusedCount (recs : List AddressRecord) (c : Bool) : Nat :=
  recs.countP (unusedAbovePred c (lastUsedIdx recs c))

/-- One step of the query `Order("key_index desc") ... First`: keep the
record of chain `c` with the largest key index. -/
def maxIdxStep (c : Bool) (acc : Option AddressRecord) (r : AddressRecord) : Option AddressRecord :=
  if r.change == c then
    match acc with
    | none => some r
    | some m => if m.keyIndex < r.keyIndex then some r else some m
  else acc

/-- The record of chain `c` with the largest key index, none when the
chain has no records (gorm record-not-found). -/
def maxIdxRecord (recs : List AddressRecord) (c : Bool) : Option AddressRecord :=
  recs.foldl (maxIdxStep c) none

/-- `nextIndex` as computed at the top of `createNewKeys`: one past the
largest existing index of the chain, 0 when the chain is empty. -/
def nextIdx (recs : List AddressRecord) (c : Bool) : Nat :=
  match maxIdxRecord recs c with
  | some r => r.keyIndex + 1
  | none => 0

/-- The injected per-coin derivation environment: whether BIP32 child
derivation at an index of a chain succeeds, and the address produced by
`addrFunc` for the chain-level child key at an index. -/
structure KeychainEnv where
  childValid : Bool → Nat → Bool
  addrOf : Bool → Nat → Nat

/-- KeychainConfig. -/
structure KeychainCfg where
  lookaheadWindowSize : Nat
  externalOnly : Bool
  disableMarkAsUsed : Bool
deriving DecidableEq, Repr

/-- The generation loop of `createNewKeys`: starting at `nextIndex`,
derive keys of chain `c`, skipping indices where derivation fails, until
`numKeys` records have been inserted.  The Go loop is unbounded; `fuel`
bounds the number of iterations and `none` models non-termination. -/
def createNewKeysLoop (env : KeychainEnv) (c : Bool) :
    List AddressRecord → Nat → Nat → Nat → Option (List AddressRecord)
  | recs, _, 0, _ => some recs
  | _, _, _ + 1, 0 => none
  | recs, nextIndex, numKeys + 1, fuel + 1 =>
    if env.childValid c nextIndex then
      createNewKeysLoop env c
        (recs ++ [⟨env.addrOf c nextIndex, nextIndex, c, false⟩])
        (nextIndex + 1) numKeys fuel
    else
      createNewKeysLoop env c recs (nextIndex + 1) (numKeys + 1) fuel

/-- `createNewKeys`: insert `numKeys` fresh unused records for chain `c`
starting after the chain's largest existing index. -/
def createNewKeys (env : KeychainEnv) (recs : List AddressRecord) (c : Bool)
    (numKeys fuel : Nat) : Option (List AddressRecord) :=
  createNewKeysLoop env c recs (nextIdx recs c) numKeys fuel

/-- `extendKeychain`: top up the look-ahead window of the internal chain
(unless external-only) and of the external chain to the configured size.
Both windows are measured before any insertion, as in
`getLookaheadWindows`. -/
def extendKeychain (env : KeychainEnv) (cfg : KeychainCfg)
    (recs : List AddressRecord) (fuel : Nat) : Option (List AddressRecord) :=
  let internalUnused := unusedCount recs true
  let externalUnused := unusedCount recs false
  let afterInternal : Option (List AddressRecord) :=
    if cfg.externalOnly = false ∧ internalUnused < cfg.lookaheadWindowSize then
      createNewKeys env recs true (cfg.lookaheadWindowSize - internalUnused) fuel
    else some recs
  match afterInternal with
  | none => none
  | some recs1 =>
    if externalUnused < cfg.lookaheadWindowSize then
      createNewKeys env recs1 false (cfg.lookaheadWindowSize - externalUnused) fuel
    else some recs1

/-- Set the used flag of the first record carrying the given address
(the gorm `First` + `Save` pair of `MarkAddressAsUsed`). -/
def setUsedFirst (a : Nat) : List AddressRecord → List AddressRecord
  | [] => []
  | r :: rs => if r.addr == a then { r with used := true } :: rs else r :: setUsedFirst a rs

/-- `MarkAddressAsUsed`: a no-op under `disableMarkAsUsed`; otherwise mark
the record used (error when the address is unknown) and extend the
keychain. -/
def markAddressAsUsed (env : KeychainEnv) (cfg : KeychainCfg)
    (recs : List AddressRecord) (a : Nat) (fuel : Nat) : Option (List AddressRecord) :=
  if cfg.disableMarkAsUsed then some recs
  else if recs.any (fun r => r.addr == a) then
    extendKeychain env cfg (setUsedFirst a recs) fuel
  else none

/-- The retry loop of `NewAddress`: the first index at or after `i` where
child derivation on chain `c` succeeds (fuel-bounded). -/
def findValidIndex (env : KeychainEnv) (c : Bool) : Nat → Nat → Option Nat
  | _, 0 => none
  | i, fuel + 1 => if env.childValid c i then some i else findValidIndex env c (i + 1) fuel

/-- `NewAddress`: look up the largest index of the requested chain, then
derive the next key.  As in the source, derivation always uses the
external chain public key (`kc.externalPubkey.Child`), the keychain is
extended before the new record is saved, and the saved record carries
`Change: false` regardless of the requested chain. -/
def newAddress (env : KeychainEnv) (cfg : KeychainCfg)
    (recs : List AddressRecord) (change : Bool) (fuel : Nat) :
    Option (Nat × List AddressRecord) :=
  match maxIdxRecord recs change with
  | none => none
  | some r =>
    match findValidIndex env false (r.keyIndex + 1) fuel with
    | none => none
    | some index =>
      let address := env.addrOf false index
      match extendKeychain env cfg recs fuel with
      | none => none
      | some recs1 =>
        some (address, recs1 ++ [⟨address, index, false, false⟩])

/-- An operation on the keychain's persistent state, for sequencing
`MarkAddressAsUsed` and `NewAddress` calls. -/
inductive KcOp where
  | markUsed (addr : Nat)
  | newAddr (change : Bool)
deriving DecidableEq, Repr

/-- Run a sequence of keychain operations, failing when any of them
fails. -/
def runKcOps (env : KeychainEnv) (cfg : KeychainCfg) (fuel : Nat) :
    List KcOp → List AddressRecord → Option (List AddressRecord)
  | [], recs => some recs
  | KcOp.markUsed a :: ops, recs =>
    match markAddressAsUsed env cfg recs a fuel with
    | none => none
    | some recs1 => runKcOps env cfg fuel ops recs1
  | KcOp.newAddr c :: ops, recs =>
    match newAddress env cfg recs c fuel with
    | none => none
    | some (_, recs1) => runKcOps env cfg fuel ops recs1

/-! ## Key-Crypter (SetPassphase / RemovePassphrase, part_000) -/

/-- Byte strings. -/
abbrev Bytes := List Nat

/-- Error kinds raised by the passphrase operations of the keychain. -/
inductive KcErr where
  | alreadyEncrypted
  | notEncrypted
  | ciphertextTooShort
  | invalidPassphrase
  | deriveFailed
deriving DecidableEq, Repr

/-- database.CoinRecord, restricted to the fields the passphrase
operations touch.  `masterPriv` holds either the plaintext serialized
account key or (base64 elided) IV-prefixed ciphertext. -/
structure CoinRecord where
  masterPriv : Bytes
  encryptedMasterKey : Bool
  kdfRounds : Nat
  kdfKeyLen : Nat
  salt : Bytes
deriving DecidableEq, Repr

/-- The external cryptographic libraries used by the key crypter, as
abstract parameters: PBKDF2-HMAC-SHA512 key derivation, AES-256-CFB
encryption/decryption keyed by derived key and IV, the
`hd.NewKeyFromString` parse check and the success of
`generateAccountPrivKeys` on the parsed key. -/
structure KeyCrypto where
  pbkdf2 : Bytes → Bytes → Nat → Nat → Bytes
  cfbEncrypt : Bytes → Bytes → Bytes → Bytes
  cfbDecrypt : Bytes → Bytes → Bytes → Bytes
  parseKey : Bytes → Bool
  genPrivOk : Bytes → Bool

/-- defaultKdfRounds. -/
def defaultKdfRounds : Nat := 8192

/-- defaultKeyLength. -/
def defaultKeyLength : Nat := 32

/-- aes.BlockSize. -/
def aesBlockSize : Nat := 16

/-- `SetPassphase`: refuse when already encrypted, otherwise derive a key
from the passphrase and a fresh salt, encrypt the stored master private
key with a fresh IV prepended to the ciphertext, and update the coin
record (the in-memory chain private keys are dropped alongside). -/
def setPassphase (C : KeyCrypto) (rec : CoinRecord) (pw salt iv : Bytes) :
    Except KcErr CoinRecord :=
  if rec.encryptedMasterKey then .error KcErr.alreadyEncrypted
  else
    let plaintext := rec.masterPriv
    let dk := C.pbkdf2 pw salt defaultKdfRounds defaultKeyLength
    let ciphertext := iv ++ C.cfbEncrypt dk iv plaintext
    .ok { rec with
          masterPriv := ciphertext
          encryptedMasterKey := true
          kdfRounds := defaultKdfRounds
          kdfKeyLen := defaultKeyLength
          salt := salt }

/-- `RemovePassphrase`: refuse while chain private keys are in memory
(the wallet is then not encrypted); otherwise derive the key with the
stored salt and rounds, split off the IV, decrypt, and accept exactly
when the decryption parses as an extended key, storing the plaintext
back.  A decryption that does not parse is reported as an invalid
passphrase. -/
def removePassphrase (C : KeyCrypto) (keysInMemory : Bool) (rec : CoinRecord)
    (pw : Bytes) : Except KcErr CoinRecord :=
  if keysInMemory then .error KcErr.notEncrypted
  else
    let ciphertext := rec.masterPriv
    let dk := C.pbkdf2 pw rec.salt rec.kdfRounds rec.kdfKeyLen
    if ciphertext.length < aesBlockSize then .error KcErr.ciphertextTooShort
    else
      let iv := ciphertext.take aesBlockSize
      let ct := ciphertext.drop aesBlockSize
      let plain := C.cfbDecrypt dk iv ct
      if C.parseKey plain then
        if C.genPrivOk plain then
          .ok { rec with masterPriv := plain, encryptedMasterKey := false }
        else .error KcErr.deriveFailed
      else .error KcErr.invalidPassphrase

/-- Modelled from the spec: the implementation of `Database.Update` is
not under src (only the interface); per the documentation in
database.go, the closure's changes are committed on a nil error and the
transaction is rolled back — the stored record kept unchanged — when the
closure errors. -/
def runUpdate (f : CoinRecord → Except KcErr CoinRecord) (rec : CoinRecord) : CoinRecord :=
  match f rec with
  | .ok r => r
  | .error _ => rec

/-! ## Mock bitcoincash wallet (wallet.go) -/

/-- Error kinds raised by the wallet operations. -/
inductive WErr where
  | insufficientFunds
  | timeoutNotExpired
deriving DecidableEq, Repr

/-- mockUtxo: outpoint bytes (txid followed by a 4-byte big-endian output
index), owning address, amount and confirmation height. -/
structure MUtxo where
  outpoint : Bytes
  address : Nat
  value : Int
  height : Int
deriving DecidableEq, Repr

/-- iwallet.SpendInfo. -/
structure SpendInfo where
  id : Bytes
  address : Nat
  amount : Int
  isRelevant : Bool
  isWatched : Bool
deriving DecidableEq, Repr

/-- iwallet.Transaction (the txid is modelled as the raw bytes whose hex
string the Go code stores). -/
structure MTransaction where
  id : Bytes
  «to» : List SpendInfo
  «from» : List SpendInfo
  height : Int
deriving DecidableEq, Repr

/-- iwallet.EscrowSignature. -/
structure EscrowSig where
  index : Int
  signature : Bytes
deriving DecidableEq, Repr

/-- The MockWallet's mutable state: the address map (address to used
flag), the watched-address set, the UTXO map keyed by outpoint, and the
transaction map keyed by txid. -/
structure WalletState where
  addrs : List (Nat × Bool)
  watchedAddrs : List Nat
  utxos : List MUtxo
  transactions : List MTransaction
deriving DecidableEq, Repr

/-- Membership in the wallet's address map. -/
def hasAddr (w : WalletState) (a : Nat) : Bool :=
  w.addrs.any (fun p => p.1 == a)

/-- Go map assignment `addrs[a] = u`. -/
def setAddr (addrs : List (Nat × Bool)) (a : Nat) (u : Bool) : List (Nat × Bool) :=
  if addrs.any (fun p => p.1 == a) then addrs.map (fun p => if p.1 == a then (a, u) else p)
  else addrs ++ [(a, u)]

/-- Go map assignment `utxos[outpoint] = u`. -/
def setUtxo (us : List MUtxo) (u : MUtxo) : List MUtxo :=
  if us.any (fun x => x.outpoint == u.outpoint) then
    us.map (fun x => if x.outpoint == u.outpoint then u else x)
  else us ++ [u]

/-- Go map deletion `delete(utxos, outpoint)`. -/
def delUtxo (us : List MUtxo) (op : Bytes) : List MUtxo :=
  us.filter (fun x => !(x.outpoint == op))

/-- Go map assignment `transactions[txn.ID] = txn`. -/
def setTxn (ts : List MTransaction) (t : MTransaction) : List MTransaction :=
  if ts.any (fun x => x.id == t.id) then ts.map (fun x => if x.id == t.id then t else x)
  else ts ++ [t]

/-- Go set insertion `watchedAddrs[a] = struct{}{}`. -/
def addWatched (ws : List Nat) (a : Nat) : List Nat :=
  if ws.any (fun x => x == a) then ws else ws ++ [a]

/-- The deferred `onCommit` closures a wallet operation can install on a
manual database transaction, defunctionalized: each constructor carries
exactly the values the corresponding Go closure captures. -/
inductive Hook where
  | spendHook (txn : MTransaction) (utxosToDelete : List Bytes) (changeUtxo : Option MUtxo)
  | sweepHook (txn : MTransaction) (utxosToDelete : List Bytes)
  | watchHook (addr : Nat)
  | ingestHook (utxosToAdd : List MUtxo) (txn : MTransaction)
deriving DecidableEq, Repr

/-- The body of each `onCommit` closure (channel notifications elided):
store the transaction, delete the spent UTXOs, insert the change or
escrow UTXOs and mark their addresses used / watched. -/
def applyHook : Hook → WalletState → WalletState
  | .spendHook txn dels chg, w =>
    let w1 := { w with transactions := setTxn w.transactions txn }
    let w2 := { w1 with utxos := dels.foldl delUtxo w1.utxos }
    match chg with
    | none => w2
    | some cu => { w2 with utxos := setUtxo w2.utxos cu, addrs := setAddr w2.addrs cu.address true }
  | .sweepHook txn dels, w =>
    let w1 := { w with transactions := setTxn w.transactions txn }
    { w1 with utxos := dels.foldl delUtxo w1.utxos }
  | .watchHook a, w => { w with watchedAddrs := addWatched w.watchedAddrs a }
  | .ingestHook us txn, w =>
    let w1 := us.foldl
      (fun acc u => { acc with utxos := setUtxo acc.utxos u, addrs := setAddr acc.addrs u.address true }) w
    { w1 with transactions := setTxn w1.transactions txn }

/-- The manual database transaction (`dbTx`): it carries a single mutable
`onCommit` slot, so a transaction holds at most one hook. -/
structure DbTx where
  onCommit : Option Hook
deriving DecidableEq, Repr

/-- Modelled from the spec: the `dbTx.Commit` implementation is not under
src (only the `database.Tx` interface).  Per the spec and the interface
documentation, `Commit` makes the staged changes durable and then runs
the registered `OnCommit` hook; the mock wallet stages all its state
changes inside that hook. -/
def commitTx (tx : DbTx) (w : WalletState) : WalletState :=
  match tx.onCommit with
  | some h => applyHook h w
  | none => w

/-- iwallet.FeeLevel. -/
inductive FeeLevel where
  | economic
  | normal
  | priority
deriving DecidableEq, Repr

/-- The fee switch shared by `Spend`, `SweepWallet` and
`EstimateSpendFee`. -/
def feeFor : FeeLevel → Int
  | .economic => 250
  | .normal => 500
  | .priority => 750

/-- `IsDust`: amounts strictly below 500 base units are dust. -/
def isDust (amount : Int) : Bool :=
  decide (amount < 500)

/-- The coin-selection loop of `Spend`: accumulate UTXOs in map-iteration
order until the running total reaches the target; returns the selected
prefix and the final running total. -/
def selectUtxos (target : Int) : List MUtxo → Int → List MUtxo × Int
  | [], total => ([], total)
  | u :: rest, total =>
    let total1 := total + u.value
    if target ≤ total1 then ([u], total1)
    else
      let r := selectUtxos target rest total1
      (u :: r.1, r.2)

/-- Sum of UTXO values, in iteration order. -/
def sumValues (us : List MUtxo) : Int :=
  us.foldl (fun a u => a + u.value) 0

/-- The change output of a built transaction: the second output when
present (the recipient is always output 0), zero otherwise. -/
def changeOf (txn : MTransaction) : Int :=
  match txn.«to» with
  | [_, c] => c.amount
  | _ => 0

/-- The address paid by the change output, when present. -/
def changeAddrOf (txn : MTransaction) : Nat :=
  match txn.«to» with
  | [_, c] => c.address
  | _ => 0

/-- `Spend`: pick the flat fee for the level, select UTXOs until they
cover amount plus fee (insufficient funds otherwise), build the
transaction with the recipient output first, append a change output
paying a freshly generated address whenever the selection strictly
exceeds amount plus fee (the fresh address is recorded unused in the
address map immediately), and stage deletion of the spent UTXOs,
insertion of the change UTXO and storage of the transaction on the
transaction's commit hook.  `txid` and `changeAddr` stand for the random
bytes drawn inside the Go function. -/
def spend (w : WalletState) (tx : DbTx) (txid : Bytes) (changeAddr : Nat)
    (toAddr : Nat) (amt : Int) (feeLevel : FeeLevel) :
    Option (WalletState × DbTx × MTransaction) :=
  let fee := feeFor feeLevel
  let totalWithFee := amt + fee
  let sel := selectUtxos totalWithFee w.utxos 0
  if sel.2 < totalWithFee then none
  else
    let txn0 : MTransaction :=
      { id := txid
        «to» := [{ id := txid ++ [0, 0, 0, 0], address := toAddr, amount := amt,
                   isRelevant := false, isWatched := false }]
        «from» := []
        height := 0 }
    let step :=
      if totalWithFee < sel.2 then
        let change : SpendInfo :=
          { id := txid ++ [0, 0, 0, 1], address := changeAddr,
            amount := sel.2 - (amt + fee), isRelevant := true, isWatched := false }
        ({ w with addrs := setAddr w.addrs changeAddr false },
         { txn0 with «to» := txn0.«to» ++ [change] },
         some ({ outpoint := change.id, address := change.address,
                 value := change.amount, height := 0 } : MUtxo))
      else (w, txn0, none)
    let txn : MTransaction :=
      { step.2.1 with
        «from» := sel.1.map (fun u =>
          { id := u.outpoint, address := u.address, amount := u.value,
            isRelevant := true, isWatched := false }) }
    let utxosToDelete := sel.1.map (fun u => u.outpoint)
    some (step.1, { tx with onCommit := some (.spendHook txn utxosToDelete step.2.2) }, txn)

/-- `SweepWallet`: spend every UTXO, paying the full balance minus the
flat fee to the recipient, and stage deletion of all UTXOs and storage of
the transaction. -/
def sweepWallet (w : WalletState) (tx : DbTx) (txid : Bytes) (toAddr : Nat)
    (feeLevel : FeeLevel) : WalletState × DbTx × MTransaction :=
  let fee := feeFor feeLevel
  let totalUtxo := sumValues w.utxos
  let txn : MTransaction :=
    { id := txid
      «to» := [{ id := txid ++ [0, 0, 0, 0], address := toAddr, amount := totalUtxo - fee,
                 isRelevant := false, isWatched := false }]
      «from» := w.utxos.map (fun u =>
        { id := u.outpoint, address := u.address, amount := u.value,
          isRelevant := true, isWatched := false })
      height := 0 }
  (w, { tx with onCommit := some (.sweepHook txn (w.utxos.map (fun u => u.outpoint))) }, txn)

/-- `WatchAddress`: stage insertion of the address into the watched set
on the commit hook. -/
def watchAddress (w : WalletState) (tx : DbTx) (addr : Nat) : WalletState × DbTx :=
  (w, { tx with onCommit := some (.watchHook addr) })

/-- Big-endian bytes of `uint32(n)`. -/
def beBytes4 (n : Nat) : Bytes :=
  [n / 2 ^ 24 % 256, n / 2 ^ 16 % 256, n / 2 ^ 8 % 256, n % 256]

/-- Big-endian bytes of `uint64(n)`. -/
def beBytes8 (n : Nat) : Bytes :=
  [n / 2 ^ 56 % 256, n / 2 ^ 48 % 256, n / 2 ^ 40 % 256, n / 2 ^ 32 % 256,
   n / 2 ^ 24 % 256, n / 2 ^ 16 % 256, n / 2 ^ 8 % 256, n % 256]

/-- `binary.BigEndian.Uint64` over an 8-byte slice. -/
def beUint64 (bs : Bytes) : Nat :=
  bs.foldl (fun a b => a * 256 + b) 0

/-- Go's conversion of a (possibly negative) `int` to `uint32`. -/
def uint32OfInt (t : Int) : Nat :=
  (t % (2 ^ 32 : Int)).toNat

/-- Go's conversion of an `int64` to `uint64`. -/
def uint64OfInt (t : Int) : Nat :=
  (t % (2 ^ 64 : Int)).toNat

/-- A lowercase hex digit as in encoding/hex. -/
def hexChar (n : Nat) : Nat :=
  if n < 10 then 48 + n else 87 + n

/-- Lowercase hex encoding of a byte string. -/
def hexEncode (bs : Bytes) : Bytes :=
  bs.foldl (fun acc b => acc ++ [hexChar (b / 16), hexChar (b % 16)]) []

/-- The loop of `CreateMultisigAddress` and `CreateMultisigWithTimeout`
that concatenates the compressed serializations of the supplied keys in
caller order, followed by the 4-byte big-endian threshold. -/
def multisigRedeemScript {PK : Type} (ser : PK → Bytes) (keys : List PK)
    (threshold : Int) : Bytes :=
  keys.foldl (fun acc k => acc ++ ser k) [] ++ beBytes4 (uint32OfInt threshold)

/-- `CreateMultisigAddress`: build the redeem script from the keys in the
supplied order and the threshold, and return the hex-encoded SHA-256 of
the script as the address.  The Go function always returns a nil error.
`ser` and `h256` stand for the external secp256k1 serialization and
SHA-256. -/
def createMultisigAddress {PK : Type} (ser : PK → Bytes) (h256 : Bytes → Bytes)
    (keys : List PK) (threshold : Int) : Except WErr (Bytes × Bytes) :=
  let redeemScript := multisigRedeemScript ser keys threshold
  .ok (hexEncode (h256 redeemScript), redeemScript)

/-- `CreateMultisigWithTimeout`: as `CreateMultisigAddress`, with the
compressed timeout key and the absolute unix expiry time (now plus the
timeout, as 8 big-endian bytes) appended to the redeem script. -/
def createMultisigWithTimeout {PK : Type} (ser : PK → Bytes) (h256 : Bytes → Bytes)
    (now : Int) (keys : List PK) (threshold : Int) (timeout : Int) (timeoutKey : PK) :
    Except WErr (Bytes × Bytes) :=
  let rs0 := keys.foldl (fun acc k => acc ++ ser k) [] ++ beBytes4 (uint32OfInt threshold)
  let rs1 := rs0 ++ ser timeoutKey
  let redeemScript := rs1 ++ beBytes8 (uint64OfInt (now + timeout))
  .ok (hexEncode (h256 redeemScript), redeemScript)

/-- The loop of `BuildAndSend` and `ReleaseFundsAfterTimeout` that turns
each output paying an owned address into a pending UTXO at the fresh
txid. -/
def ownedOutUtxos (w : WalletState) (txid : Bytes) (outs : List SpendInfo) : List MUtxo :=
  (outs.enum.filter (fun p => hasAddr w p.2.address)).map
    (fun p => { outpoint := txid ++ beBytes4 p.1, address := p.2.address,
                value := p.2.amount, height := 0 })

/-- `BuildAndSend`: assign the fresh txid to the transaction, collect the
pending UTXOs for outputs paying owned addresses, and stage their
insertion together with storage of the transaction on the commit hook.
The signature slices and the redeem script are accepted but never
inspected by the mock. -/
def buildAndSend (w : WalletState) (tx : DbTx) (txid : Bytes) (txn : MTransaction)
    (signatures : List (List EscrowSig)) (redeemScript : Bytes) :
    WalletState × DbTx × MTransaction :=
  let txn1 := { txn with id := txid }
  let utxosToAdd := ownedOutUtxos w txid txn1.«to»
  (w, { tx with onCommit := some (.ingestHook utxosToAdd txn1) }, txn1)

/-- `ReleaseFundsAfterTimeout`: read the absolute unix expiry from the
last 8 bytes of the redeem script; fail while it lies after the current
wall time, leaving no hook staged; otherwise stage exactly the
`BuildAndSend` ingestion hook.  The timeout key is accepted but never
used. -/
def releaseFundsAfterTimeout (w : WalletState) (tx : DbTx) (txid : Bytes) (now : Int)
    (timeoutKey : Nat) (txn : MTransaction) (redeemScript : Bytes) :
    Except WErr (WalletState × DbTx × MTransaction) :=
  let txn1 := { txn with id := txid }
  let expiry : Nat := beUint64 (redeemScript.drop (redeemScript.length - 8))
  if now < (expiry : Int) then .error WErr.timeoutNotExpired
  else
    let utxosToAdd := ownedOutUtxos w txid txn1.«to»
    .ok (w, { tx with onCommit := some (.ingestHook utxosToAdd txn1) }, txn1)

/-- The wallet operations that register an `OnCommit` hook on a manual
database transaction, with the randomness they draw made explicit. -/
inductive WalletOp where
  | spendOp (txid : Bytes) (changeAddr : Nat) (toAddr : Nat) (amt : Int) (lvl : FeeLevel)
  | sweepOp (txid : Bytes) (toAddr : Nat) (lvl : FeeLevel)
  | watchOp (addr : Nat)
  | buildAndSendOp (txid : Bytes) (txn : MTransaction) (sigs : List (List EscrowSig)) (redeemScript : Bytes)
  | releaseOp (txid : Bytes) (now : Int) (timeoutKey : Nat) (txn : MTransaction) (redeemScript : Bytes)
deriving DecidableEq, Repr

/-- Perform one hook-registering wallet operation on an open manual
transaction: the immediate wallet state and the transaction after the
operation returns (none when the operation fails before staging). -/
def stage (w : WalletState) (tx : DbTx) : WalletOp → Option (WalletState × DbTx)
  | .spendOp txid ca toA amt lvl =>
    match spend w tx txid ca toA amt lvl with
    | none => none
    | some r => some (r.1, r.2.1)
  | .sweepOp txid toA lvl =>
    let r := sweepWallet w tx txid toA lvl
    some (r.1, r.2.1)
  | .watchOp a => some (watchAddress w tx a)
  | .buildAndSendOp txid txn sigs rs =>
    let r := buildAndSend w tx txid txn sigs rs
    some (r.1, r.2.1)
  | .releaseOp txid now k txn rs =>
    match releaseFundsAfterTimeout w tx txid now k txn rs with
    | .error _ => none
    | .ok r => some (r.1, r.2.1)

/-! ## Auxiliary measures and witness instances -/

/-- Proof-side measure: one past the key index of an optional record
(the first index `createNewKeys` would use). -/
def idxBound : Option AddressRecord → Int
  | none => 0
  | some r => (r.keyIndex : Int) + 1

/-- Witness derivation environment: every index derives, internal
addresses start at 1000. -/
def envW : KeychainEnv :=
  ⟨fun _ _ => true, fun c i => (if c then 1000 else 0) + i⟩

/-- Witness keychain configuration: window 1, both chains,
mark-as-used enabled. -/
def cfgW : KeychainCfg := ⟨1, false, false⟩

/-- Witness initial records: a single unused external address. -/
def recsW : List AddressRecord := [⟨100, 0, false, false⟩]

/-- Witness state after marking address 100 used. -/
def sW : List AddressRecord :=
  [⟨100, 0, false, true⟩, ⟨1000, 0, true, false⟩, ⟨1, 1, false, false⟩]

/-- Derivation environment for exercising `newAddress`: external
addresses are 100 + index, internal addresses 200 + index. -/
def envC3 : KeychainEnv :=
  ⟨fun _ _ => true, fun c i => (if c then 200 else 100) + i⟩

/-- Configuration with an empty look-ahead window, isolating the
`NewAddress` record from `extendKeychain` insertions. -/
def cfgC3 : KeychainCfg := ⟨0, false, false⟩

/-- Records for exercising `newAddress`: one internal and one external
record, both at index 0. -/
def recsC3 : List AddressRecord :=
  [⟨200, 0, true, false⟩, ⟨100, 0, false, false⟩]

deriving instance DecidableEq for Except

/-- Whether an `Except` result carries a value. -/
def isOkE {α : Type} : Except WErr α → Bool
  | .ok _ => true
  | .error _ => false

/-- Witness key crypter: the derived key is the passphrase itself, the
cipher is a byte shift by the key's digit sum, and a byte string parses
as an extended key exactly when it starts with byte 120. -/
def cW : KeyCrypto :=
  { pbkdf2 := fun pw _ _ _ => pw
    cfbEncrypt := fun k _ p => p.map (fun b => (b + k.sum) % 256)
    cfbDecrypt := fun k _ c => c.map (fun b => (b + 256 - k.sum % 256) % 256)
    parseKey := fun p => p.headD 0 == 120
    genPrivOk := fun _ => true }

/-- Witness coin record holding a parseable plaintext master key. -/
def recW5 : CoinRecord := ⟨[120, 7], false, 0, 0, []⟩

/-- Witness IV of block length. -/
def ivW : Bytes := List.replicate 16 0

/-- Witness coin record after encryption under passphrase `[1]`. -/
def r1W : CoinRecord := ⟨List.replicate 16 0 ++ [121, 8], true, 8192, 32, []⟩

/-- Witness wallet holding one 1000-unit UTXO. -/
def wW : WalletState := ⟨[], [], [⟨[1], 7, 1000, 0⟩], []⟩

/-- Wallet holding one 801-unit UTXO, so a 300-unit economic spend
leaves a dust remainder of 251. -/
def w4W : WalletState := ⟨[], [], [⟨[1], 7, 801, 0⟩], []⟩

/-- Wallet owning address 3 for exercising the escrow release. -/
def wRel : WalletState := ⟨[(3, true)], [], [], []⟩

/-- Escrow transaction paying 50 units to owned address 3. -/
def txnRel : MTransaction := ⟨[], [⟨[], 3, 50, false, false⟩], [], 0⟩

/-- Redeem script whose trailing 8 bytes encode unix expiry 0. -/
def rsRel : Bytes := [0, 0, 0, 0, 0, 0, 0, 0]

/-- Redeem script whose trailing 8 bytes encode unix expiry 200. -/
def rsFut : Bytes := [0, 0, 0, 0, 0, 0, 0, 200]

/-- Witness wallet holding one 100-unit UTXO at address 2. -/
def wC10 : WalletState := ⟨[], [], [⟨[1], 2, 100, 0⟩], []⟩

/-- The transaction `SweepWallet` builds from `wC10` with txid bytes
`[9]` at the economic fee level. -/
def txnC10 : MTransaction :=
  ⟨[9], [⟨[9, 0, 0, 0, 0], 7, -150, false, false⟩], [⟨[1], 2, 100, true, false⟩], 0⟩

/-! ## Keychain lemmas -/

theorem foldl_lastUsedStep_unused (c : Bool) (l : List AddressRecord)
    (h : ∀ r ∈ l, r.used = false) (a : Int) :
    l.foldl (lastUsedStep c) a = a := by
  induction l generalizing a with
  | nil => rfl
  | cons r rs ih =>
    have hr : r.used = false := h r (List.mem_cons_self _ _)
    have hstep : lastUsedStep c a r = a := by
      simp [lastUsedStep, hr]
    rw [List.foldl_cons, hstep]
    exact ih (fun x hx => h x (List.mem_cons_of_mem _ hx)) a

theorem lastUsedIdx_append_unused (recs new : List AddressRecord) (c : Bool)
    (h : ∀ r ∈ new, r.used = false) :
    lastUsedIdx (recs ++ new) c = lastUsedIdx recs c := by
  unfold lastUsedIdx
  rw [List.foldl_append]
  exact foldl_lastUsedStep_unused c new h _

theorem lastUsedStep_cases (c : Bool) (a : Int) (r : AddressRecord) :
    lastUsedStep c a r = a ∨
      (lastUsedStep c a r = (r.keyIndex : Int) ∧ (r.change == c) = true) := by
  unfold lastUsedStep
  split
  · next hcond =>
    right
    refine ⟨rfl, ?_⟩
    have := hcond
    simp only [Bool.and_eq_true] at this
    exact this.1.1
  · left; rfl

theorem idxBound_le_maxIdxStep (c : Bool) (m : Option AddressRecord) (r : AddressRecord) :
    idxBound m ≤ idxBound (maxIdxStep c m r) := by
  cases m with
  | none =>
    unfold maxIdxStep
    by_cases hc : (r.change == c) = true
    · rw [if_pos hc]
      show idxBound none ≤ idxBound (some r)
      simp only [idxBound]
      omega
    · rw [if_neg hc]
  | some mr =>
    unfold maxIdxStep
    by_cases hc : (r.change == c) = true
    · rw [if_pos hc]
      show idxBound (some mr) ≤ idxBound (if mr.keyIndex < r.keyIndex then some r else some mr)
      by_cases hm : mr.keyIndex < r.keyIndex
      · rw [if_pos hm]
        have hcast : (mr.keyIndex : Int) < (r.keyIndex : Int) := by exact_mod_cast hm
        simp only [idxBound]
        omega
      · rw [if_neg hm]
    · rw [if_neg hc]

theorem keyIndex_lt_maxIdxStep (c : Bool) (m : Option AddressRecord) (r : AddressRecord)
    (hc : (r.change == c) = true) :
    (r.keyIndex : Int) < idxBound (maxIdxStep c m r) := by
  cases m with
  | none =>
    unfold maxIdxStep
    rw [if_pos hc]
    show (r.keyIndex : Int) < idxBound (some r)
    simp only [idxBound]
    omega
  | some mr =>
    unfold maxIdxStep
    rw [if_pos hc]
    show (r.keyIndex : Int) < idxBound (if mr.keyIndex < r.keyIndex then some r else some mr)
    by_cases hm : mr.keyIndex < r.keyIndex
    · rw [if_pos hm]
      simp only [idxBound]
      omega
    · rw [if_neg hm]
      have hcast : (r.keyIndex : Int) ≤ (mr.keyIndex : Int) := by
        exact_mod_cast Nat.le_of_not_lt hm
      simp only [idxBound]
      omega

theorem foldl_steps_lt_bound (c : Bool) (l : List AddressRecord) :
    ∀ (a : Int) (m : Option AddressRecord), a < idxBound m →
      l.foldl (lastUsedStep c) a < idxBound (l.foldl (maxIdxStep c) m) := by
  induction l with
  | nil => intro a m h; exact h
  | cons r rs ih =>
    intro a m h
    rw [List.foldl_cons, List.foldl_cons]
    apply ih
    rcases lastUsedStep_cases c a r with hs | ⟨hs, hc⟩
    · rw [hs]
      exact lt_of_lt_of_le h (idxBound_le_maxIdxStep c m r)
    · rw [hs]
      exact keyIndex_lt_maxIdxStep c m r hc

theorem lastUsedIdx_lt_nextIdx (recs : List AddressRecord) (c : Bool) :
    lastUsedIdx recs c < (nextIdx recs c : Int) := by
  have h := foldl_steps_lt_bound c recs (-1) none (by simp [idxBound])
  have hb : idxBound (maxIdxRecord recs c) = (nextIdx recs c : Int) := by
    unfold nextIdx
    cases maxIdxRecord recs c with
    | none => simp [idxBound]
    | some r => simp [idxBound]
  unfold lastUsedIdx
  unfold maxIdxRecord at hb
  rw [← hb]
  exact h

theorem createNewKeysLoop_spec (env : KeychainEnv) (c : Bool) :
    ∀ (fuel numKeys nextIndex : Nat) (recs recs' : List AddressRecord),
      createNewKeysLoop env c recs nextIndex numKeys fuel = some recs' →
      ∃ new : List AddressRecord, recs' = recs ++ new ∧ new.length = numKeys ∧
        ∀ r ∈ new, r.change = c ∧ r.used = false ∧ nextIndex ≤ r.keyIndex := by
  intro fuel
  induction fuel with
  | zero =>
    intro numKeys nextIndex recs recs' h
    cases numKeys with
    | zero =>
      simp only [createNewKeysLoop, Option.some.injEq] at h
      exact ⟨[], by simp [h], rfl, by simp⟩
    | succ n => simp [createNewKeysLoop] at h
  | succ fuel ih =>
    intro numKeys nextIndex recs recs' h
    cases numKeys with
    | zero =>
      simp only [createNewKeysLoop, Option.some.injEq] at h
      exact ⟨[], by simp [h], rfl, by simp⟩
    | succ n =>
      simp only [createNewKeysLoop] at h
      by_cases hv : env.childValid c nextIndex = true
      · rw [if_pos hv] at h
        obtain ⟨new, h1, h2, h3⟩ := ih n (nextIndex + 1) _ _ h
        refine ⟨⟨env.addrOf c nextIndex, nextIndex, c, false⟩ :: new, ?_, ?_, ?_⟩
        · rw [h1]; simp
        · simp [h2]
        · intro r hr
          rcases List.mem_cons.mp hr with hr | hr
          · subst hr; exact ⟨rfl, rfl, le_refl _⟩
          · obtain ⟨ha, hb, hi⟩ := h3 r hr
            exact ⟨ha, hb, by omega⟩
      · rw [if_neg hv] at h
        obtain ⟨new, h1, h2, h3⟩ := ih (n + 1) (nextIndex + 1) _ _ h
        refine ⟨new, h1, h2, fun r hr => ?_⟩
        obtain ⟨ha, hb, hi⟩ := h3 r hr
        exact ⟨ha, hb, by omega⟩

theorem unusedCount_createNewKeys (env : KeychainEnv) (c : Bool)
    (recs recs' : List AddressRecord) (n fuel : Nat)
    (h : createNewKeys env recs c n fuel = some recs') :
    unusedCount recs' c = unusedCount recs c + n ∧
      ∀ c2, c2 ≠ c → unusedCount recs' c2 = unusedCount recs c2 := by
  obtain ⟨new, h1, h2, h3⟩ :=
    createNewKeysLoop_spec env c fuel n (nextIdx recs c) recs recs' h
  subst h1
  have hunused : ∀ r ∈ new, r.used = false := fun r hr => (h3 r hr).2.1
  constructor
  · have hlu : lastUsedIdx (recs ++ new) c = lastUsedIdx recs c :=
      lastUsedIdx_append_unused _ _ _ hunused
    unfold unusedCount
    rw [hlu, List.countP_append]
    congr 1
    rw [← h2]
    apply List.countP_eq_length.mpr
    intro r hr
    obtain ⟨ha, hb, hi⟩ := h3 r hr
    have hlt : lastUsedIdx recs c < (r.keyIndex : Int) := by
      have h4 := lastUsedIdx_lt_nextIdx recs c
      have h5 : (nextIdx recs c : Int) ≤ (r.keyIndex : Int) := by exact_mod_cast hi
      omega
    simp [unusedAbovePred, ha, hb, hlt]
  · intro c2 hne
    have hlu : lastUsedIdx (recs ++ new) c2 = lastUsedIdx recs c2 :=
      lastUsedIdx_append_unused _ _ _ hunused
    unfold unusedCount
    rw [hlu, List.countP_append]
    have hz : List.countP (unusedAbovePred c2 (lastUsedIdx recs c2)) new = 0 := by
      apply List.countP_eq_zero.mpr
      intro r hr
      obtain ⟨ha, _, _⟩ := h3 r hr
      simp [unusedAbovePred, ha, Ne.symm hne]
    omega

theorem extendKeychain_lookahead (env : KeychainEnv) (cfg : KeychainCfg)
    (recs recs' : List AddressRecord) (fuel : Nat)
    (h : extendKeychain env cfg recs fuel = some recs') (c : Bool)
    (hc : c = false ∨ cfg.externalOnly = false) :
    cfg.lookaheadWindowSize ≤ unusedCount recs' c := by
  simp only [extendKeychain] at h
  split at h
  · simp at h
  · next recs1 heq =>
    split at heq
    · next hP =>
      obtain ⟨hPo, hPl⟩ := hP
      obtain ⟨u1c, u1o⟩ := unusedCount_createNewKeys env true recs recs1 _ fuel heq
      have u1f : unusedCount recs1 false = unusedCount recs false :=
        u1o false (by simp)
      split at h
      · next hQ =>
        obtain ⟨u2c, u2o⟩ := unusedCount_createNewKeys env false recs1 recs' _ fuel h
        have u2t : unusedCount recs' true = unusedCount recs1 true :=
          u2o true (by simp)
        cases c with
        | false => rw [u2c, u1f]; omega
        | true => rw [u2t, u1c]; omega
      · next hQ =>
        injection h with h
        subst h
        cases c with
        | false => rw [u1f]; omega
        | true => rw [u1c]; omega
    · next hP =>
      injection heq with heq
      subst heq
      have hit : c = true → unusedCount recs true ≥ cfg.lookaheadWindowSize := by
        intro hct
        have hext : cfg.externalOnly = false := by
          rcases hc with hc | hc
          · rw [hct] at hc; exact absurd hc (by simp)
          · exact hc
        by_contra hlt
        exact hP ⟨hext, by omega⟩
      split at h
      · next hQ =>
        obtain ⟨u2c, u2o⟩ := unusedCount_createNewKeys env false recs recs' _ fuel h
        have u2t : unusedCount recs' true = unusedCount recs true :=
          u2o true (by simp)
        cases c with
        | false => rw [u2c]; omega
        | true =>
          have := hit rfl
          rw [u2t]; omega
      · next hQ =>
        injection h with h
        subst h
        cases c with
        | false => omega
        | true =>
          have := hit rfl
          omega

/-- Claim C1: after any sequence of `MarkAddressAsUsed` and `NewAddress`
operations followed by a final `ExtendKeychain`, every chain (external,
and internal unless the keychain is external-only) has at least
`LookaheadWindowSize` unused address records whose key index lies
strictly above the chain's highest used key index. -/
theorem lookahead_invariant (env : KeychainEnv) (cfg : KeychainCfg)
    (ops : List KcOp) (recs0 s s' : List AddressRecord) (fuel fuel2 : Nat) (c : Bool)
    (hrun : runKcOps env cfg fuel ops recs0 = some s)
    (hext : extendKeychain env cfg s fuel2 = some s')
    (hc : c = false ∨ cfg.externalOnly = false) :
    cfg.lookaheadWindowSize ≤ unusedCount s' c :=
  extendKeychain_lookahead env cfg s s' fuel2 hext c hc

/-- Witness for C1 at a concrete run: mark the only external address
used, extend, and observe a full window on the external chain. -/
theorem lookahead_invariant_witness :
    runKcOps envW cfgW 8 [KcOp.markUsed 100] recsW = some sW ∧
    extendKeychain envW cfgW sW 8 = some sW ∧
    cfgW.lookaheadWindowSize ≤ unusedCount sW false :=
  ⟨by decide, by decide,
   lookahead_invariant envW cfgW [KcOp.markUsed 100] recsW sW sW 8 8 false
     (by decide) (by decide) (Or.inl rfl)⟩

/-- Claim C3 (failing run): `NewAddress(change := true)` on a keychain
whose internal chain tops out at index 0 derives the key from the
external chain (the new address is `envC3.addrOf false 1 = 101`) and
persists the record with `change := false`, so the requested internal
chain gains no record; the record is also saved after, not before, the
keychain is extended. -/
theorem newAddress_wrong_chain :
    newAddress envC3 cfgC3 recsC3 true 4 =
      some (101, recsC3 ++ [⟨101, 1, false, false⟩]) ∧
    envC3.addrOf false 1 = 101 := by
  constructor
  · decide
  · decide

/-! ## Key-crypter theorems -/

theorem removePassphrase_of_cipher (C : KeyCrypto) (iv ct : Bytes) (rec : CoinRecord)
    (hmp : rec.masterPriv = iv ++ ct) (hivlen : iv.length = aesBlockSize) (pw : Bytes) :
    removePassphrase C false rec pw =
      (if C.parseKey (C.cfbDecrypt (C.pbkdf2 pw rec.salt rec.kdfRounds rec.kdfKeyLen) iv ct) then
        if C.genPrivOk (C.cfbDecrypt (C.pbkdf2 pw rec.salt rec.kdfRounds rec.kdfKeyLen) iv ct) then
          .ok { rec with
                masterPriv := C.cfbDecrypt (C.pbkdf2 pw rec.salt rec.kdfRounds rec.kdfKeyLen) iv ct
                encryptedMasterKey := false }
        else .error KcErr.deriveFailed
      else .error KcErr.invalidPassphrase) := by
  rw [removePassphrase]
  rw [if_neg (by simp)]
  have hlen : ¬ rec.masterPriv.length < aesBlockSize := by
    rw [hmp]
    simp [List.length_append, hivlen]
  rw [if_neg hlen, hmp, ← hivlen, List.take_left, List.drop_left]

/-- Claim C5: encrypting an extended-key-parseable master private key
with `SetPassphase(pw)` and decrypting with `RemovePassphrase(pw)`
restores the stored `MasterPriv` to its pre-encryption plaintext, while
a passphrase whose derived key decrypts the ciphertext to bytes that do
not parse as an extended key fails with `InvalidPassphrase` and — per
the rollback semantics of `Database.Update` — leaves the stored record
unchanged.  The AES-CFB round trip and the failure of the parse under
the wrong key are the cryptographic assumptions, stated as hypotheses on
the abstract cipher. -/
theorem passphrase_roundtrip (C : KeyCrypto) (rec0 r1 : CoinRecord) (pw pw2 salt iv : Bytes)
    (hivlen : iv.length = aesBlockSize)
    (henc0 : rec0.encryptedMasterKey = false)
    (hset : setPassphase C rec0 pw salt iv = .ok r1)
    (hrt : C.cfbDecrypt (C.pbkdf2 pw salt defaultKdfRounds defaultKeyLength) iv
             (C.cfbEncrypt (C.pbkdf2 pw salt defaultKdfRounds defaultKeyLength) iv rec0.masterPriv)
           = rec0.masterPriv)
    (hparse : C.parseKey rec0.masterPriv = true)
    (hgen : C.genPrivOk rec0.masterPriv = true)
    (hbad : C.parseKey
        (C.cfbDecrypt (C.pbkdf2 pw2 salt defaultKdfRounds defaultKeyLength) iv
          (C.cfbEncrypt (C.pbkdf2 pw salt defaultKdfRounds defaultKeyLength) iv rec0.masterPriv))
        = false) :
    removePassphrase C false r1 pw =
      .ok { r1 with masterPriv := rec0.masterPriv, encryptedMasterKey := false } ∧
    removePassphrase C false r1 pw2 = .error KcErr.invalidPassphrase ∧
    runUpdate (fun r => removePassphrase C false r pw2) r1 = r1 := by
  rw [setPassphase, if_neg (by simp [henc0])] at hset
  injection hset with hset
  have hmp : r1.masterPriv =
      iv ++ C.cfbEncrypt (C.pbkdf2 pw salt defaultKdfRounds defaultKeyLength) iv rec0.masterPriv := by
    rw [← hset]
  have hsalt : r1.salt = salt := by rw [← hset]
  have hrounds : r1.kdfRounds = defaultKdfRounds := by rw [← hset]
  have hkeylen : r1.kdfKeyLen = defaultKeyLength := by rw [← hset]
  have h1 := removePassphrase_of_cipher C iv
    (C.cfbEncrypt (C.pbkdf2 pw salt defaultKdfRounds defaultKeyLength) iv rec0.masterPriv)
    r1 hmp hivlen pw
  have h2 := removePassphrase_of_cipher C iv
    (C.cfbEncrypt (C.pbkdf2 pw salt defaultKdfRounds defaultKeyLength) iv rec0.masterPriv)
    r1 hmp hivlen pw2
  rw [hsalt, hrounds, hkeylen] at h1 h2
  refine ⟨?_, ?_, ?_⟩
  · rw [h1, hrt]
    simp only [hparse, hgen, if_true]
    simp [CoinRecord.mk.injEq]
    exact ⟨hrounds.symm, hkeylen.symm, hsalt.symm⟩
  · rw [h2]
    simp only [hbad]
    rw [if_neg (by simp)]
  · simp only [runUpdate]
    rw [h2]
    simp [hbad]

/-- Witness for C5 with a concrete toy cipher: passphrase `[1]`
round-trips the plaintext `[120, 7]`, passphrase `[2]` is rejected with
the record left unchanged. -/
theorem passphrase_roundtrip_witness :
    setPassphase cW recW5 [1] [] ivW = .ok r1W ∧
    removePassphrase cW false r1W [1] =
      .ok { r1W with masterPriv := recW5.masterPriv, encryptedMasterKey := false } ∧
    removePassphrase cW false r1W [2] = .error KcErr.invalidPassphrase ∧
    runUpdate (fun r => removePassphrase cW false r [2]) r1W = r1W := by
  refine ⟨by decide, ?_⟩
  have h := passphrase_roundtrip cW recW5 r1W [1] [2] [] ivW
    (by decide) (by decide) (by decide) (by decide) (by decide) (by decide) (by decide)
  exact h

/-! ## Wallet lemmas -/

theorem foldl_add_value (l : List MUtxo) : ∀ a : Int,
    l.foldl (fun s u => s + u.value) a = a + sumValues l := by
  induction l with
  | nil => intro a; simp [sumValues]
  | cons u us ih =>
    intro a
    show List.foldl _ (a + u.value) us = a + sumValues (u :: us)
    rw [ih]
    have hc : sumValues (u :: us) = 0 + u.value + sumValues us := by
      show List.foldl _ (0 + u.value) us = _
      rw [ih]
    rw [hc]
    ring

theorem sumValues_cons (u : MUtxo) (us : List MUtxo) :
    sumValues (u :: us) = u.value + sumValues us := by
  show List.foldl _ (0 + u.value) us = _
  rw [foldl_add_value]
  ring

theorem selectUtxos_sum (t : Int) (us : List MUtxo) : ∀ acc : Int,
    (selectUtxos t us acc).2 = acc + sumValues (selectUtxos t us acc).1 := by
  induction us with
  | nil => intro acc; simp [selectUtxos, sumValues]
  | cons u rest ih =>
    intro acc
    simp only [selectUtxos]
    by_cases h : t ≤ acc + u.value
    · rw [if_pos h]
      have : sumValues [u] = u.value := by simp [sumValues]
      simp [this]
    · rw [if_neg h]
      dsimp only
      rw [ih (acc + u.value), sumValues_cons]
      ring

theorem selectUtxos_subset (t : Int) (us : List MUtxo) : ∀ acc : Int,
    ∀ u ∈ (selectUtxos t us acc).1, u ∈ us := by
  induction us with
  | nil => intro acc u hu; simp [selectUtxos] at hu
  | cons v rest ih =>
    intro acc u hu
    simp only [selectUtxos] at hu
    by_cases h : t ≤ acc + v.value
    · rw [if_pos h] at hu
      simp at hu
      simp [hu]
    · rw [if_neg h] at hu
      dsimp only at hu
      rcases List.mem_cons.mp hu with hu | hu
      · simp [hu]
      · exact List.mem_cons_of_mem _ (ih _ u hu)

theorem mem_foldl_delUtxo (ops : List Bytes) : ∀ (us : List MUtxo) (x : MUtxo),
    x ∈ ops.foldl delUtxo us → x ∈ us ∧ ∀ op ∈ ops, x.outpoint ≠ op := by
  induction ops with
  | nil => intro us x hx; exact ⟨hx, by simp⟩
  | cons op ops ih =>
    intro us x hx
    rw [List.foldl_cons] at hx
    obtain ⟨hmem, hrest⟩ := ih (delUtxo us op) x hx
    rw [delUtxo, List.mem_filter] at hmem
    obtain ⟨hus, hne⟩ := hmem
    refine ⟨hus, ?_⟩
    intro op2 hop2
    rcases List.mem_cons.mp hop2 with hop | hop
    · subst hop
      simpa using hne
    · exact hrest op2 hop

theorem mem_setUtxo (us : List MUtxo) (u x : MUtxo) (hx : x ∈ setUtxo us u) :
    x ∈ us ∨ x = u := by
  unfold setUtxo at hx
  split at hx
  · obtain ⟨y, hy, hxy⟩ := List.mem_map.mp hx
    by_cases hyo : (y.outpoint == u.outpoint) = true
    · rw [if_pos hyo] at hxy
      right
      exact hxy.symm
    · rw [if_neg hyo] at hxy
      left
      rw [← hxy]
      exact hy
  · rcases List.mem_append.mp hx with hx | hx
    · left; exact hx
    · right; simpa using hx

theorem foldl_append_eq_join {PK : Type} (ser : PK → Bytes) (keys : List PK) : ∀ acc : Bytes,
    keys.foldl (fun a k => a ++ ser k) acc = acc ++ (keys.map ser).flatten := by
  induction keys with
  | nil => intro acc; simp
  | cons k ks ih =>
    intro acc
    rw [List.foldl_cons, ih, List.map_cons, List.flatten_cons, List.append_assoc]

theorem join_fixed_segment {PK : Type} (ser : PK → Bytes) (hlen : ∀ k, (ser k).length = 33) :
    ∀ (keys : List PK) (i : Nat) (hi : i < keys.length) (rest : Bytes),
      (((keys.map ser).flatten ++ rest).drop (33 * i)).take 33 = ser (keys.get ⟨i, hi⟩) := by
  intro keys
  induction keys with
  | nil => intro i hi; exact absurd hi (by simp)
  | cons k ks ih =>
    intro i hi rest
    cases i with
    | zero =>
      simp only [List.map_cons, List.flatten_cons, Nat.mul_zero, List.drop_zero,
        List.append_assoc]
      rw [show (33 : Nat) = (ser k).length from (hlen k).symm, List.take_left]
      rfl
    | succ i =>
      have hmul : 33 * (i + 1) = (ser k).length + 33 * i := by
        rw [hlen k]; ring
      simp only [List.map_cons, List.flatten_cons, List.append_assoc]
      rw [hmul, List.drop_append]
      exact ih i (by simpa using hi) rest

/-! ## Multisig and escrow theorems -/

/-- Claim C7: `CreateMultisigAddress` is a pure function of the supplied
keys and threshold — two invocations with equal arguments return the
same address and byte-identical redeem script — and the redeem script
embeds the compressed keys in caller order: the bytes at offset `33·i`
are exactly the serialization of the i-th supplied key. -/
theorem createMultisig_deterministic {PK : Type} (ser : PK → Bytes) (h256 : Bytes → Bytes)
    (keys keys2 : List PK) (t t2 : Int)
    (hk : keys = keys2) (ht : t = t2) (hlen : ∀ k, (ser k).length = 33) :
    createMultisigAddress ser h256 keys t = createMultisigAddress ser h256 keys2 t2 ∧
    ∀ (i : Nat) (hi : i < keys.length),
      ((multisigRedeemScript ser keys t).drop (33 * i)).take 33 = ser (keys.get ⟨i, hi⟩) := by
  subst hk
  subst ht
  refine ⟨rfl, ?_⟩
  intro i hi
  unfold multisigRedeemScript
  rw [foldl_append_eq_join, List.nil_append]
  exact join_fixed_segment ser hlen keys i hi _

/-- Witness for C7 with two concrete 33-byte keys and threshold 2. -/
theorem createMultisig_deterministic_witness :
    createMultisigAddress (fun k : Nat => List.replicate 33 k) (fun b => b) [1, 2] 2 =
      createMultisigAddress (fun k : Nat => List.replicate 33 k) (fun b => b) [1, 2] 2 ∧
    ∀ (i : Nat) (hi : i < ([1, 2] : List Nat).length),
      ((multisigRedeemScript (fun k : Nat => List.replicate 33 k) [1, 2] 2).drop (33 * i)).take 33
        = List.replicate 33 (([1, 2] : List Nat).get ⟨i, hi⟩) :=
  createMultisig_deterministic (fun k : Nat => List.replicate 33 k) (fun b => b)
    [1, 2] [1, 2] 2 2 rfl rfl (fun k => by simp)

/-- Claim C8 (amended): `CreateMultisigAddress` performs no threshold
validation at all — it returns an address and redeem script with a nil
error for every key list and threshold, including `threshold > n`; no
`ThresholdExceedsKeys` failure exists in the code. -/
theorem createMultisig_no_threshold_check {PK : Type} (ser : PK → Bytes) (h256 : Bytes → Bytes)
    (keys : List PK) (t : Int) :
    createMultisigAddress ser h256 keys t =
      .ok (hexEncode (h256 (multisigRedeemScript ser keys t)), multisigRedeemScript ser keys t) ∧
    isOkE (createMultisigAddress ser h256 keys t) = true :=
  ⟨rfl, rfl⟩

/-- Claim C8 (counterexample): with one key and threshold 2 — so
`threshold > n` — the function still succeeds with a nil error, where
the claim requires a `ThresholdExceedsKeys` failure. -/
theorem createMultisig_threshold_counterexample :
    isOkE (createMultisigAddress (fun k : Nat => [k]) (fun b => b) [5] 2) = true ∧
    ([5] : List Nat).length < 2 := by
  decide

/-- Claim C9 (amended): `ReleaseFundsAfterTimeout` fails with the
timeout-not-expired error — staging no commit hook — exactly when the
absolute unix timestamp held in the redeem script's last 8 bytes lies
after the current wall time; otherwise it stages precisely the
`BuildAndSend` ingestion hook.  The result is entirely independent of
the supplied timeout key, and no signature is produced. -/
theorem releaseFunds_behavior (w : WalletState) (tx : DbTx) (txid : Bytes) (now : Int)
    (k k2 : Nat) (txn : MTransaction) (rs : Bytes) :
    releaseFundsAfterTimeout w tx txid now k txn rs =
      (if now < (beUint64 (rs.drop (rs.length - 8)) : Int) then Except.error WErr.timeoutNotExpired
       else Except.ok (buildAndSend w tx txid txn [] [])) ∧
    releaseFundsAfterTimeout w tx txid now k txn rs =
      releaseFundsAfterTimeout w tx txid now k2 txn rs :=
  ⟨rfl, rfl⟩

/-- Claim C9 (counterexample): at wall time 100, with a redeem script
encoding expiry 0, the release proceeds and returns byte-identical
results for two different timeout keys 7 and 8 — the timeout key is
never used and nothing is signed — while with expiry 200 it fails on
the wall clock alone, no confirmation height involved. -/
theorem releaseFunds_ignores_timeout_key :
    releaseFundsAfterTimeout wRel ⟨none⟩ [9] 100 7 txnRel rsRel =
      releaseFundsAfterTimeout wRel ⟨none⟩ [9] 100 8 txnRel rsRel ∧
    (7 : Nat) ≠ 8 ∧
    releaseFundsAfterTimeout wRel ⟨none⟩ [9] 100 7 txnRel rsFut =
      .error WErr.timeoutNotExpired ∧
    isOkE (releaseFundsAfterTimeout wRel ⟨none⟩ [9] 100 7 txnRel rsRel) = true := by
  refine ⟨rfl, by decide, by decide, by decide⟩

/-! ## Commit-hook theorems -/

theorem stage_onCommit_isSome (w w2 : WalletState) (tx tx2 : DbTx) (op : WalletOp)
    (h : stage w tx op = some (w2, tx2)) : tx2.onCommit.isSome = true := by
  cases op with
  | spendOp txid ca toA amt lvl =>
    simp only [stage] at h
    split at h
    · exact Option.noConfusion h
    · next r heq =>
      injection h with h
      rw [Prod.mk.injEq] at h
      obtain ⟨hw, ht⟩ := h
      subst ht
      simp only [spend] at heq
      split at heq
      · exact Option.noConfusion heq
      · injection heq with heq
        subst heq
        rfl
  | sweepOp txid toA lvl =>
    simp only [stage] at h
    injection h with h
    rw [Prod.mk.injEq] at h
    obtain ⟨hw, ht⟩ := h
    subst ht
    rfl
  | watchOp a =>
    simp only [stage, watchAddress] at h
    injection h with h
    rw [Prod.mk.injEq] at h
    obtain ⟨hw, ht⟩ := h
    subst ht
    rfl
  | buildAndSendOp txid txn sigs rs =>
    simp only [stage] at h
    injection h with h
    rw [Prod.mk.injEq] at h
    obtain ⟨hw, ht⟩ := h
    subst ht
    rfl
  | releaseOp txid now k txn rs =>
    simp only [stage] at h
    split at h
    · exact Option.noConfusion h
    · next r heq =>
      injection h with h
      rw [Prod.mk.injEq] at h
      obtain ⟨hw, ht⟩ := h
      subst ht
      simp only [releaseFundsAfterTimeout] at heq
      split at heq
      · exact Except.noConfusion heq
      · injection heq with heq
        subst heq
        rfl

/-- Claim C10: a manual transaction holds at most one `OnCommit` hook
(a single mutable slot), every hook-registering wallet operation
overwrites whatever hook an earlier operation installed on the same
transaction — staging the second operation on the already-used
transaction yields exactly what staging it on a fresh transaction
yields — and `Commit` then applies only the hook left by the most
recent operation, silently dropping the earlier operation's staged
changes. -/
theorem onCommit_overwrite (w w1 w2 : WalletState) (tx0 tx1 tx2 : DbTx) (op1 op2 : WalletOp)
    (h1 : stage w tx0 op1 = some (w1, tx1))
    (h2 : stage w1 tx1 op2 = some (w2, tx2)) :
    stage w1 ⟨none⟩ op2 = some (w2, tx2) ∧
    tx2.onCommit.isSome = true ∧
    ∀ hk, tx2.onCommit = some hk → commitTx tx2 w2 = applyHook hk w2 := by
  refine ⟨?_, stage_onCommit_isSome w1 w2 tx1 tx2 op2 h2, ?_⟩
  · rw [← h2]
    cases op2 <;> rfl
  · intro hk hhk
    rw [commitTx, hhk]

/-- Witness for C10: `WatchAddress` then `SweepWallet` on one
transaction — the sweep hook replaces the watch hook, and commit runs
only the sweep's staged changes. -/
theorem onCommit_overwrite_witness :
    stage wC10 ⟨none⟩ (WalletOp.watchOp 5) = some (wC10, ⟨some (Hook.watchHook 5)⟩) ∧
    stage wC10 ⟨some (Hook.watchHook 5)⟩ (WalletOp.sweepOp [9] 7 FeeLevel.economic) =
      some (wC10, ⟨some (Hook.sweepHook txnC10 [[1]])⟩) ∧
    (stage wC10 ⟨none⟩ (WalletOp.sweepOp [9] 7 FeeLevel.economic) =
       some (wC10, ⟨some (Hook.sweepHook txnC10 [[1]])⟩) ∧
     (DbTx.mk (some (Hook.sweepHook txnC10 [[1]]))).onCommit.isSome = true ∧
     ∀ hk, (DbTx.mk (some (Hook.sweepHook txnC10 [[1]]))).onCommit = some hk →
       commitTx ⟨some (Hook.sweepHook txnC10 [[1]])⟩ wC10 = applyHook hk wC10) :=
  ⟨by decide, by decide,
   onCommit_overwrite wC10 wC10 wC10 ⟨none⟩ ⟨some (Hook.watchHook 5)⟩
     ⟨some (Hook.sweepHook txnC10 [[1]])⟩ (WalletOp.watchOp 5)
     (WalletOp.sweepOp [9] 7 FeeLevel.economic) (by decide) (by decide)⟩

/-! ## Spend theorems -/

/-- Claim C2: for every `Spend` that returns successfully and whose
transaction is then committed, the sum of the selected input UTXOs
equals amount plus fee plus the change output's amount (zero when no
change output is created), and after the commit every selected UTXO is
absent from the UTXO store.  The fresh random txid is assumed not to
collide with an existing outpoint. -/
theorem spend_conservation (w : WalletState) (tx : DbTx) (txid : Bytes) (ca toA : Nat)
    (amt : Int) (lvl : FeeLevel)
    (hfresh : ∀ u ∈ w.utxos, u.outpoint ≠ txid ++ [0, 0, 0, 1]) :
    match spend w tx txid ca toA amt lvl with
    | none => True
    | some r =>
      sumValues (selectUtxos (amt + feeFor lvl) w.utxos 0).1
        = amt + feeFor lvl + changeOf r.2.2 ∧
      ∀ u ∈ (selectUtxos (amt + feeFor lvl) w.utxos 0).1,
        ∀ x ∈ (commitTx r.2.1 r.1).utxos, x.outpoint ≠ u.outpoint := by
  cases hs : spend w tx txid ca toA amt lvl with
  | none => trivial
  | some r =>
    have hsum := selectUtxos_sum (amt + feeFor lvl) w.utxos 0
    simp only [spend] at hs
    split at hs
    · exact Option.noConfusion hs
    · next hge =>
      injection hs with hs
      subst hs
      by_cases hch : amt + feeFor lvl < (selectUtxos (amt + feeFor lvl) w.utxos 0).2
      · rw [if_pos hch]
        dsimp only
        constructor
        · dsimp only [changeOf, List.cons_append, List.nil_append]
          omega
        · intro u hu x hx
          simp only [commitTx, applyHook] at hx
          rcases mem_setUtxo _ _ _ hx with hx | hx
          · obtain ⟨-, hall⟩ := mem_foldl_delUtxo _ _ _ hx
            exact hall u.outpoint (List.mem_map_of_mem _ hu)
          · subst hx
            have humem : u ∈ w.utxos := selectUtxos_subset _ _ _ u hu
            intro he
            exact hfresh u humem (he.symm)
      · rw [if_neg hch]
        dsimp only
        constructor
        · dsimp only [changeOf]
          omega
        · intro u hu x hx
          simp only [commitTx, applyHook] at hx
          obtain ⟨-, hall⟩ := mem_foldl_delUtxo _ _ _ hx
          exact hall u.outpoint (List.mem_map_of_mem _ hu)

/-- Witness for C2: a 300-unit economic spend from a single 1000-unit
UTXO with fresh txid bytes `[5]` and fresh change address 9. -/
theorem spend_conservation_witness :
    (∀ u ∈ wW.utxos, u.outpoint ≠ [5] ++ [0, 0, 0, 1]) ∧
    (match spend wW ⟨none⟩ [5] 9 8 300 FeeLevel.economic with
     | none => True
     | some r =>
       sumValues (selectUtxos (300 + feeFor FeeLevel.economic) wW.utxos 0).1
         = 300 + feeFor FeeLevel.economic + changeOf r.2.2 ∧
       ∀ u ∈ (selectUtxos (300 + feeFor FeeLevel.economic) wW.utxos 0).1,
         ∀ x ∈ (commitTx r.2.1 r.1).utxos, x.outpoint ≠ u.outpoint) :=
  ⟨by decide, spend_conservation wW ⟨none⟩ [5] 9 8 300 FeeLevel.economic (by decide)⟩

/-- Claim C4 (amended): in `Spend`, a change output is created if and
only if the selected total strictly exceeds amount plus fee — no dust
comparison is involved — and when created it pays the freshly generated
address with amount equal to the full remainder; only a remainder of
exactly zero yields no change output. -/
theorem spend_change_iff (w : WalletState) (tx : DbTx) (txid : Bytes) (ca toA : Nat)
    (amt : Int) (lvl : FeeLevel) :
    match spend w tx txid ca toA amt lvl with
    | none => (selectUtxos (amt + feeFor lvl) w.utxos 0).2 < amt + feeFor lvl
    | some r =>
      (r.2.2.«to».length = 2 ↔
        amt + feeFor lvl < (selectUtxos (amt + feeFor lvl) w.utxos 0).2) ∧
      (amt + feeFor lvl < (selectUtxos (amt + feeFor lvl) w.utxos 0).2 →
        changeOf r.2.2 = (selectUtxos (amt + feeFor lvl) w.utxos 0).2 - (amt + feeFor lvl) ∧
        changeAddrOf r.2.2 = ca) ∧
      ((selectUtxos (amt + feeFor lvl) w.utxos 0).2 = amt + feeFor lvl →
        r.2.2.«to».length = 1) := by
  cases hs : spend w tx txid ca toA amt lvl with
  | none =>
    show (selectUtxos (amt + feeFor lvl) w.utxos 0).2 < amt + feeFor lvl
    simp only [spend] at hs
    split at hs
    · next hlt => exact hlt
    · exact Option.noConfusion hs
  | some r =>
    simp only [spend] at hs
    split at hs
    · exact Option.noConfusion hs
    · next hge =>
      injection hs with hs
      subst hs
      by_cases hch : amt + feeFor lvl < (selectUtxos (amt + feeFor lvl) w.utxos 0).2
      · rw [if_pos hch]
        dsimp only [changeOf, changeAddrOf, List.cons_append, List.nil_append]
        refine ⟨by simp [hch], fun _ => ⟨rfl, rfl⟩, fun heq => by exfalso; omega⟩
      · rw [if_neg hch]
        dsimp only [changeOf, changeAddrOf]
        refine ⟨by simp [hch], fun hlt => absurd hlt hch, fun _ => by simp⟩

/-- Witness for C4 at a concrete dust-remainder spend. -/
theorem spend_change_iff_witness :
    match spend w4W ⟨none⟩ [5] 40 8 300 FeeLevel.economic with
    | none => (selectUtxos (300 + feeFor FeeLevel.economic) w4W.utxos 0).2
        < 300 + feeFor FeeLevel.economic
    | some r =>
      (r.2.2.«to».length = 2 ↔
        300 + feeFor FeeLevel.economic < (selectUtxos (300 + feeFor FeeLevel.economic) w4W.utxos 0).2) ∧
      (300 + feeFor FeeLevel.economic < (selectUtxos (300 + feeFor FeeLevel.economic) w4W.utxos 0).2 →
        changeOf r.2.2 = (selectUtxos (300 + feeFor FeeLevel.economic) w4W.utxos 0).2
            - (300 + feeFor FeeLevel.economic) ∧
        changeAddrOf r.2.2 = 40) ∧
      ((selectUtxos (300 + feeFor FeeLevel.economic) w4W.utxos 0).2 = 300 + feeFor FeeLevel.economic →
        r.2.2.«to».length = 1) :=
  spend_change_iff w4W ⟨none⟩ [5] 40 8 300 FeeLevel.economic

/-- Claim C4 (counterexample): with a single 801-unit UTXO, a 300-unit
economic spend (flat fee 250) leaves a remainder of 251, which is below
the 500-unit dust threshold (`IsDust` holds), yet the code still creates
a change output; moreover the change pays whatever freshly generated
random address the call drew (40 in one call, 41 in the other), not the
keychain's current unused internal-chain address. -/
theorem spend_change_dust_counterexample :
    ((spend w4W ⟨none⟩ [5] 40 8 300 FeeLevel.economic).map
        (fun r => (r.2.2.«to».length, isDust (changeOf r.2.2), changeAddrOf r.2.2))
      = some (2, true, 40)) ∧
    ((spend w4W ⟨none⟩ [5] 41 8 300 FeeLevel.economic).map
        (fun r => changeAddrOf r.2.2) = some 41) := by
  decide
